import Mathlib

/-!
Verification of the tabular loader and utility functions of the
COLLEGE_PROJECT repository.  The JavaScript source is shallowly embedded:
strings are Lean `String`s (lists of characters), JS objects built by
repeated property assignment are association lists in insertion order,
JS numbers appearing in the sort comparator are modelled as rationals
extended with `NaN` and the two infinities, and fallible lookups return
`Option`.
-/

namespace CollegeProject

/-- The whitespace class used by JS `trim` and `\s` (the characters relevant
to this code base: space, tab, line feed, carriage return, vertical tab,
form feed). -/
def isWS (c : Char) : Bool :=
  c = ' ' || c = '\t' || c = '\n' || c = '\r' || c = '\x0b' || c = '\x0c'

/-- JS `String.prototype.trim` on a character list: drop leading and
trailing whitespace. -/
def jsTrimL (l : List Char) : List Char :=
  ((l.dropWhile isWS).reverse.dropWhile isWS).reverse

/-- JS `String.prototype.trim`. -/
def jsTrim (s : String) : String := ⟨jsTrimL s.data⟩

/-- JS `text.split(/\r?\n/)`: a separator is either `"\r\n"` or `"\n"`;
a lone `'\r'` is ordinary text.  `acc` holds the current line reversed. -/
def splitLinesAux : List Char → List Char → List (List Char)
  | acc, [] => [acc.reverse]
  | acc, '\n' :: rest => acc.reverse :: splitLinesAux [] rest
  | acc, '\r' :: '\n' :: rest => acc.reverse :: splitLinesAux [] rest
  | acc, c :: rest => splitLinesAux (c :: acc) rest

/-- `text.split(/\r?\n/)` as used by `parseCSV`. -/
def splitLinesJS (s : String) : List String :=
  (splitLinesAux [] s.data).map fun l => ⟨l⟩

/-- The character loop of `splitCSVLine`: `'"'` toggles the in-quotes flag
and is never emitted, `','` outside quotes ends the current field, any other
character is appended to the current field (`cur`, kept reversed). -/
def splitAuxL : List Char → Bool → List Char → List (List Char)
  | [], _, cur => [cur.reverse]
  | c :: rest, inQ, cur =>
    if c = '"' then splitAuxL rest (!inQ) cur
    else if c = ',' ∧ inQ = false then cur.reverse :: splitAuxL rest false []
    else splitAuxL rest inQ (c :: cur)

/-- `splitCSVLine` from comparision.js: split one line on commas outside
double quotes, stripping the quote characters.  The final
`out.map(s => s === undefined ? '' : s)` of the source is the identity. -/
def splitCSVLine (line : String) : List String :=
  (splitAuxL line.data false []).map fun f => ⟨f⟩

/-- `(line.match(/"/g) || []).length`: the number of double quotes. -/
def countQuotes (l : List Char) : Nat := l.countP (· = '"')

/-- A parsed CSV record: a JS object as an association list in property
insertion order. -/
abbrev Row := List (String × String)

/-- JS property assignment `obj[k] = v`: overwrite in place if the key is
present, otherwise append (insertion-order semantics of JS objects). -/
def jsSet (row : Row) (k v : String) : Row :=
  if row.any (fun p => p.1 == k) then
    row.map fun p => if p.1 == k then (k, v) else p
  else row ++ [(k, v)]

/-- The row-building loop of `parseCSV`:
`for(j) obj[headers[j].trim()] = cols[j].trim()`.  It is only invoked when
`cols.length = headers.length`, so the `undefined` guard of the source is
vacuous and `zip` loses nothing. -/
def mkRow (headers cols : List String) : Row :=
  (headers.zip cols).foldl (fun acc p => jsSet acc (jsTrim p.1) (jsTrim p.2)) []

/-- The record loop of `parseCSV` (lines after the header): append the next
physical line to the buffer; while the buffer holds an odd number of double
quotes, keep the newline and continue accumulating; otherwise split the
buffer, keep it as a row exactly when the field count matches the header
count, and reset the buffer.  A buffer left pending at end of input is
discarded, as in the source. -/
def parseRecords (headers : List String) : List Char → List String → List Row
  | _, [] => []
  | buf, l :: rest =>
    let buf2 := buf ++ l.data
    if countQuotes buf2 % 2 = 1 then
      parseRecords headers (buf2 ++ ['\n']) rest
    else if (splitCSVLine ⟨buf2⟩).length = headers.length then
      mkRow headers (splitCSVLine ⟨buf2⟩) :: parseRecords headers [] rest
    else
      parseRecords headers [] rest

/-- `parseCSV` from comparision.js. -/
def parseCSV (text : String) : List Row :=
  let lines := splitLinesJS text
  let headers := splitCSVLine (lines.headD "")
  parseRecords headers [] lines.tail

/-- ASCII-lowercase a string, modelling JS `toLowerCase` on the data this
code handles. -/
def jsLower (s : String) : String := ⟨s.data.map Char.toLower⟩

/-- ASCII-uppercase a string, modelling JS `toUpperCase`. -/
def jsUpper (s : String) : String := ⟨s.data.map Char.toUpper⟩

/-- `n in row` followed by `row[n]`: the value of the first property whose
key is exactly `n`. -/
def lookupExact (row : Row) (n : String) : Option String :=
  (row.find? fun p => p.1 == n).map (·.2)

/-- The inner loop of `getVal`: scan the keys in insertion order and return
the value of the first key equal to the candidate up to `toLowerCase`. -/
def lookupCI (row : Row) (n : String) : Option String :=
  (row.find? fun p => jsLower p.1 == jsLower n).map (·.2)

/-- `getVal` from comparision.js: for each candidate name in order, try the
exact key, then a case-insensitive scan of all keys; return `''` when no
candidate matches. -/
def getVal (row : Row) : List String → String
  | [] => ""
  | n :: rest =>
    match lookupExact row n with
    | some v => v
    | none =>
      match lookupCI row n with
      | some v => v
      | none => getVal row rest

/-- The `replace(/\s+/g, ' ')` pass of `normalizeName`: each maximal run of
whitespace becomes a single space.  The flag records whether the previous
character was part of a whitespace run already collapsed. -/
def collapseF : Bool → List Char → List Char
  | _, [] => []
  | prevWS, c :: cs =>
    if isWS c then
      if prevWS then collapseF true cs else ' ' :: collapseF true cs
    else c :: collapseF false cs

/-- `normalizeName` from comparision.js: `''` for `undefined`/`null`
(modelled by `none`), otherwise trim, collapse internal whitespace runs to
single spaces, and lowercase. -/
def normalizeName : Option String → String
  | none => ""
  | some s => jsLower ⟨collapseF false (jsTrimL s.data)⟩

/-! Specification-side helpers (not from the source): the decomposition of a
character list into its maximal whitespace-free words, used to state what
`normalizeName` computes. -/

/-- Split a character list into its maximal non-whitespace words, dropping
all whitespace.  `cur` holds the word in progress, reversed. -/
def splitWordsAux : List Char → List Char → List (List Char)
  | cur, [] => if cur = [] then [] else [cur.reverse]
  | cur, c :: cs =>
    if isWS c then
      if cur = [] then splitWordsAux [] cs else cur.reverse :: splitWordsAux [] cs
    else splitWordsAux (c :: cur) cs

/-- The words of a character list. -/
def wordsOf (l : List Char) : List (List Char) := splitWordsAux [] l

/-- Join words with single spaces. -/
def intercalW : List (List Char) → List Char
  | [] => []
  | [w] => w
  | w :: ws => w ++ ' ' :: intercalW ws

/-- First-occurrence deduplication, the key order of a JS object built by
repeated assignment: `seen` holds the keys already emitted. -/
def firstDedupAux (seen : List String) : List String → List String
  | [] => []
  | k :: ks =>
    if k ∈ seen then firstDedupAux seen ks
    else k :: firstDedupAux (k :: seen) ks

/-! ## The explore page (source file `part_001`): `safeUrl` and
`applyClientSort`. -/

/-- A JS number as observed by the sort comparator: `NaN`, `±Infinity`, or a
finite value (rationals stand in for binary floating point; every literal
arising in these theorems is exactly representable). -/
inductive JNum where
  | nan : JNum
  | inf : JNum
  | negInf : JNum
  | fin : ℚ → JNum
  deriving DecidableEq, Repr

/-- A JSON field value in a result object. -/
inductive JVal where
  | jnum : JNum → JVal
  | jstr : String → JVal
  | jnull : JVal
  deriving DecidableEq, Repr

/-- A result-array element: `none` models a null/undefined element (the
`if (!obj) return null` guard), `some o` an object with fields `o`. -/
abbrev SItem := Option (List (String × JVal))

/-- The comparator's view of a metric value: JS `null`, a number, or a
string. -/
inductive SVal where
  | null : SVal
  | num : JNum → SVal
  | str : String → SVal
  deriving DecidableEq, Repr

/-- `obj[key]`: `none` models `undefined` (key absent). -/
def jGet (o : List (String × JVal)) (key : String) : Option JVal :=
  (o.find? fun p => p.1 == key).map (·.2)

/-- A `??` chain over lookups: the first operand that is neither `undefined`
nor `null`; `none` when the whole chain is nullish. -/
def coalesceJ (l : List (Option JVal)) : Option JVal :=
  l.findSome? fun x =>
    match x with
    | some JVal.jnull => none
    | some v => some v
    | none => none

/-- `key.replaceAll(" ", "_")`. -/
def replaceSpacesU (s : String) : String :=
  ⟨s.data.map fun c => if c = ' ' then '_' else c⟩

/-- Digit-string to natural number value. -/
def natOfDigits (l : List Char) : Nat :=
  l.foldl (fun acc c => acc * 10 + (c.toNat - 48)) 0

/-- The exponent part accepted by `parseFloat` after `e`/`E`: an optional
sign and the longest run of digits; an empty digit run contributes
exponent `0` (i.e. the exponent marker is not consumed, as in JS where
`parseFloat("1e") = 1`). -/
def expOf (l : List Char) : Int :=
  match l with
  | '+' :: ds => Int.ofNat (natOfDigits (ds.takeWhile Char.isDigit))
  | '-' :: ds => -Int.ofNat (natOfDigits (ds.takeWhile Char.isDigit))
  | ds => Int.ofNat (natOfDigits (ds.takeWhile Char.isDigit))

/-- JS `parseFloat` on a string (decimal and `Infinity` forms; the longest
valid prefix is parsed, `NaN` when no prefix parses). -/
def parseFloatS (s : String) : JNum :=
  let l := s.data.dropWhile isWS
  let neg := l.head? = some '-'
  let l2 := if l.head? = some '-' ∨ l.head? = some '+' then l.tail else l
  if ("Infinity".data).isPrefixOf l2 then
    if neg then JNum.negInf else JNum.inf
  else
    let ip := l2.takeWhile Char.isDigit
    let r1 := l2.dropWhile Char.isDigit
    let fp := if r1.head? = some '.' then r1.tail.takeWhile Char.isDigit else []
    let r2 := if r1.head? = some '.' then r1.tail.dropWhile Char.isDigit else r1
    if ip = [] ∧ fp = [] then JNum.nan
    else
      let den : Nat := 10 ^ fp.length
      let mag : Nat := natOfDigits ip * den + natOfDigits fp
      let num : Int := if neg then -(mag : Int) else (mag : Int)
      let e : Int :=
        match r2 with
        | 'e' :: ds => expOf ds
        | 'E' :: ds => expOf ds
        | _ => 0
      JNum.fin (if 0 ≤ e then mkRat (num * ((10 ^ e.toNat : Nat) : Int)) den
                else mkRat num (den * 10 ^ (-e).toNat))

/-- `parseFloat` applied to an arbitrary value: a number round-trips through
its string form unchanged (`parseFloat(String(n)) = n`, with
`parseFloat("NaN") = NaN`), a string is parsed, `null` stringifies to
`"null"` which does not parse. -/
def parseFloatJ : JVal → JNum
  | JVal.jnum n => n
  | JVal.jstr s => parseFloatS s
  | JVal.jnull => JNum.nan

/-- JS `Number(string)` (used implicitly when `<` compares a number with a
string): whitespace-trimmed empty string is `0`, otherwise the whole string
must be a signed decimal or `Infinity` literal (hex/octal/binary literals do
not occur in this data and are not modelled). -/
def numberFromString (s : String) : JNum :=
  let core := jsTrimL s.data
  if core = [] then JNum.fin 0
  else
    let neg := core.head? = some '-'
    let l2 := if core.head? = some '-' ∨ core.head? = some '+' then core.tail else core
    if l2 = "Infinity".data then (if neg then JNum.negInf else JNum.inf)
    else
      let ip := l2.takeWhile Char.isDigit
      let r1 := l2.dropWhile Char.isDigit
      let fp := if r1.head? = some '.' then r1.tail.takeWhile Char.isDigit else []
      let r2 := if r1.head? = some '.' then r1.tail.dropWhile Char.isDigit else r1
      let eOk : Option Int :=
        match r2 with
        | [] => some 0
        | 'e' :: '+' :: ds => if ds ≠ [] ∧ ds.all Char.isDigit then some (Int.ofNat (natOfDigits ds)) else none
        | 'e' :: '-' :: ds => if ds ≠ [] ∧ ds.all Char.isDigit then some (-Int.ofNat (natOfDigits ds)) else none
        | 'e' :: ds => if ds ≠ [] ∧ ds.all Char.isDigit then some (Int.ofNat (natOfDigits ds)) else none
        | 'E' :: '+' :: ds => if ds ≠ [] ∧ ds.all Char.isDigit then some (Int.ofNat (natOfDigits ds)) else none
        | 'E' :: '-' :: ds => if ds ≠ [] ∧ ds.all Char.isDigit then some (-Int.ofNat (natOfDigits ds)) else none
        | 'E' :: ds => if ds ≠ [] ∧ ds.all Char.isDigit then some (Int.ofNat (natOfDigits ds)) else none
        | _ => none
      if ip = [] ∧ fp = [] then JNum.nan
      else
        match eOk with
        | none => JNum.nan
        | some e =>
          let den : Nat := 10 ^ fp.length
          let mag : Nat := natOfDigits ip * den + natOfDigits fp
          let num : Int := if neg then -(mag : Int) else (mag : Int)
          JNum.fin (if 0 ≤ e then mkRat (num * ((10 ^ e.toNat : Nat) : Int)) den
                    else mkRat num (den * 10 ^ (-e).toNat))

/-- JS subtraction on numbers (used for the comparator result `vb - va`). -/
def jnumSub : JNum → JNum → JNum
  | JNum.nan, _ => JNum.nan
  | _, JNum.nan => JNum.nan
  | JNum.inf, JNum.inf => JNum.nan
  | JNum.inf, _ => JNum.inf
  | JNum.negInf, JNum.negInf => JNum.nan
  | JNum.negInf, _ => JNum.negInf
  | JNum.fin _, JNum.inf => JNum.negInf
  | JNum.fin _, JNum.negInf => JNum.inf
  | JNum.fin q, JNum.fin r => JNum.fin (q - r)

/-- JS `<` on numbers (`NaN` compares false with everything). -/
def jnumLtB : JNum → JNum → Bool
  | JNum.nan, _ => false
  | _, JNum.nan => false
  | JNum.inf, _ => false
  | JNum.negInf, JNum.negInf => false
  | JNum.negInf, _ => true
  | JNum.fin _, JNum.inf => true
  | JNum.fin _, JNum.negInf => false
  | JNum.fin q, JNum.fin r => decide (q < r)

/-- JS `<` on the comparator's values (number or string; `null` never
reaches this comparison).  A number against a string converts the string
with `Number`. -/
def jsLtV : SVal → SVal → Bool
  | SVal.num n, SVal.num m => jnumLtB n m
  | SVal.str s, SVal.str t => decide (s < t)
  | SVal.num n, SVal.str t => jnumLtB n (numberFromString t)
  | SVal.str s, SVal.num m => jnumLtB (numberFromString s) m
  | _, _ => false

/-- The inner `getVal` of `applyClientSort`.  For the three rank metrics the
`??` chain defaults to `Infinity` and the result is always a number; for the
other metrics a nullish or empty value yields `null`, a parseable value the
parsed number, anything else the lowercased string form (`String(NaN)` is
`"NaN"`). -/
def sortGetVal (obj : SItem) (key : String) : SVal :=
  match obj with
  | none => SVal.null
  | some o =>
    if key = "Predicted Closing Rank" ∨ key = "PredictedClosingRank" ∨ key = "Closing Rank" then
      SVal.num (parseFloatJ ((coalesceJ
        [jGet o "Predicted Closing Rank", jGet o "Closing Rank",
         jGet o "PredictedClosingRank"]).getD (JVal.jstr "Infinity")))
    else
      match coalesceJ [jGet o key, jGet o (replaceSpacesU key),
                       jGet o (jsLower key), jGet o (jsUpper key)] with
      | none => SVal.null
      | some (JVal.jstr s) =>
        if s = "" then SVal.null
        else
          match parseFloatS s with
          | JNum.nan => SVal.str (jsLower s)
          | x => SVal.num x
      | some (JVal.jnum JNum.nan) => SVal.str "nan"
      | some (JVal.jnum x) => SVal.num x
      | some JVal.jnull => SVal.null

/-- The comparator passed to `arr.sort` in `applyClientSort`, as a JS
number. -/
def sortCmp (metric : String) (orderDesc : Bool) (a b : SItem) : JNum :=
  let va := sortGetVal a metric
  let vb := sortGetVal b metric
  match va, vb with
  | SVal.null, SVal.null => JNum.fin 0
  | SVal.null, _ => JNum.fin 1
  | _, SVal.null => JNum.fin (-1)
  | SVal.num n, SVal.num m =>
    if orderDesc then jnumSub m n else jnumSub n m
  | x, y =>
    if jsLtV x y then (if orderDesc then JNum.fin 1 else JNum.fin (-1))
    else if jsLtV y x then (if orderDesc then JNum.fin (-1) else JNum.fin 1)
    else JNum.fin 0

/-- ECMAScript `SortCompare`: an element `x` stays before `y` exactly when
the comparator result is negative, zero, or `NaN` (`NaN` is coerced to
`+0`). -/
def sortKeeps (x : JNum) : Bool :=
  match x with
  | JNum.nan => true
  | JNum.inf => false
  | JNum.negInf => true
  | JNum.fin q => decide (q ≤ 0)

/-- Stable merge of two lists under a boolean "keep left first" relation,
modelling the engine's stable sort. -/
def merge (le : α → α → Bool) : List α → List α → List α
  | [], ys => ys
  | x :: xs, [] => x :: xs
  | x :: xs, y :: ys =>
    if le x y then x :: merge le xs (y :: ys) else y :: merge le (x :: xs) ys
  termination_by xs ys => xs.length + ys.length

/-- Stable merge sort, modelling `Array.prototype.sort` with a comparator
(ECMAScript requires the sort to be stable; the result is always a
permutation). -/
def msort (le : α → α → Bool) (l : List α) : List α :=
  if h : l.length ≤ 1 then l
  else
    merge le (msort le (l.take (l.length / 2))) (msort le (l.drop (l.length / 2)))
  termination_by l.length
  decreasing_by
    · simp only [List.length_take]; omega
    · simp only [List.length_drop]; omega

/-- `applyClientSort` from the explore page: copy the results, resolve the
metric (empty selection falls back to `"Predicted Closing Rank"`), choose
the direction (descending for score/CTC metrics, ascending for rank
metrics), and sort with the comparator above. -/
def applyClientSort (results : List SItem) (metricSel : String) : List SItem :=
  let metric := if metricSel = "" then "Predicted Closing Rank" else metricSel
  let rankMetrics := ["Predicted Closing Rank", "Closing Rank", "PredictedClosingRank"]
  let descendingByDefault :=
    ["Max Average CTC", "placement_score", "overall_aspect_score",
     "professor_score", "mess_score"]
  let orderDesc := if metric ∈ descendingByDefault then true else !(metric ∈ rankMetrics)
  msort (fun a b => sortKeeps (sortCmp metric orderDesc a b)) results

/-- The character class `[\w\-\.]` of the bare-domain regex in `safeUrl`. -/
def isWordDashDot (c : Char) : Bool :=
  c.isAlphanum || c = '_' || c = '-' || c = '.'

/-- Matching of `/^[\w\-\.]+\.[a-z]{2,}/i` against a character list: some
nonempty prefix of class characters, then a literal dot followed by at least
two ASCII letters.  The boolean argument records whether at least one class
character has been consumed. -/
def domainMatchAux : Bool → List Char → Bool
  | _, [] => false
  | seen, c :: rest =>
    (match c, rest with
     | '.', c1 :: c2 :: _ => seen && c1.isAlpha && c2.isAlpha
     | _, _ => false)
    || (isWordDashDot c && domainMatchAux true rest)

/-- Whether a string matches `/^[\w\-\.]+\.[a-z]{2,}/i`. -/
def domainMatch (s : String) : Bool := domainMatchAux false s.data

/-- JS `String.prototype.startsWith`. -/
def jsStartsWith (s pre : String) : Bool :=
  pre.data.isPrefixOf s.data

/-- `safeUrl` from the explore page.  `none` models any non-string input;
the `!url` guard also rejects the empty string. -/
def safeUrl : Option String → String
  | none => ""
  | some u =>
    if u = "" then ""
    else
      let url := jsTrim u
      if jsStartsWith url "data:" || jsStartsWith url "http://" ||
         jsStartsWith url "https://" || jsStartsWith url "blob:" then url
      else if jsStartsWith url "/" || jsStartsWith url "./" || jsStartsWith url "../" then url
      else if domainMatch url then "https://" ++ url
      else ""

/-- Specification-side: whether a string begins with a URI scheme
(`ALPHA *( ALPHA / DIGIT / "+" / "-" / "." ) ":"`, RFC 3986). -/
def hasSchemeAux : List Char → Bool
  | [] => false
  | c :: rest =>
    c = ':' || ((c.isAlphanum || c = '+' || c = '-' || c = '.') && hasSchemeAux rest)

/-- Whether a string is of the form `scheme ":" ...`. -/
def hasScheme (s : String) : Bool :=
  match s.data with
  | [] => false
  | c :: rest => c.isAlpha && hasSchemeAux rest

/-! ## Supporting lemmas -/

theorem countQuotes_append (a b : List Char) :
    countQuotes (a ++ b) = countQuotes a + countQuotes b :=
  List.countP_append _ _ _

/-! ## Claim theorems -/

/-- Claim C2: a record whose first physical line holds an unterminated
quoted field (an odd number of quote characters) is joined with the next
physical line, the embedded newline preserved, and yields a single row; in
particular `"a,b\n\"x\ny\",z"` parses to one row whose first cell contains
the embedded newline. -/
theorem parseCSV_joins_quoted_newline :
    (∀ (headers : List String) (l1 l2 : String) (rest : List String),
      countQuotes l1.data % 2 = 1 →
      countQuotes l2.data % 2 = 1 →
      (splitCSVLine ⟨l1.data ++ '\n' :: l2.data⟩).length = headers.length →
      parseRecords headers [] (l1 :: l2 :: rest) =
        mkRow headers (splitCSVLine ⟨l1.data ++ '\n' :: l2.data⟩) ::
          parseRecords headers [] rest) ∧
    parseCSV "a,b\n\"x\ny\",z" = [[("a", "x\ny"), ("b", "z")]] := by
  constructor
  · intro headers l1 l2 rest h1 h2 hlen
    have hjoin : (l1.data ++ ['\n']) ++ l2.data = l1.data ++ '\n' :: l2.data := by
      simp
    have heven : ¬ countQuotes (l1.data ++ '\n' :: l2.data) % 2 = 1 := by
      have hap := countQuotes_append l1.data ('\n' :: l2.data)
      have hq : countQuotes ('\n' :: l2.data) = countQuotes l2.data := by
        simp [countQuotes]
      rw [hq] at hap
      omega
    rw [parseRecords]
    simp only [List.nil_append]
    rw [parseRecords]
    simp only [hjoin]
    rw [if_pos h1, if_neg heven, if_pos hlen]
  · rfl

/-- Witness for `parseCSV_joins_quoted_newline` at a concrete record split
across two physical lines. -/
theorem parseCSV_joins_quoted_newline_witness :
    parseRecords ["a", "b"] [] ["\"x", "y\",z"] =
      mkRow ["a", "b"] (splitCSVLine ⟨("\"x").data ++ '\n' :: ("y\",z").data⟩) ::
        parseRecords ["a", "b"] [] [] :=
  parseCSV_joins_quoted_newline.1 ["a", "b"] "\"x" "y\",z" []
    (by decide) (by decide) (by decide)

/-- Claim C3: a complete record (even quote count) whose field count differs
from the header count contributes no row and leaves the rest of the parse
unchanged; in particular the malformed middle record of
`"a,b\n1,2,3\nx,y"` is silently dropped. -/
theorem parseCSV_drops_ragged_records :
    (∀ (headers : List String) (buf : List Char) (l : String) (rest : List String),
      countQuotes (buf ++ l.data) % 2 = 0 →
      (splitCSVLine ⟨buf ++ l.data⟩).length ≠ headers.length →
      parseRecords headers buf (l :: rest) = parseRecords headers [] rest) ∧
    parseCSV "a,b\n1,2,3\nx,y" = [[("a", "x"), ("b", "y")]] := by
  constructor
  · intro headers buf l rest heven hlen
    rw [parseRecords]
    have hno : ¬ countQuotes (buf ++ l.data) % 2 = 1 := by omega
    simp only [hno, if_neg, if_false]
    simp [hlen]
  · rfl

/-- Witness for `parseCSV_drops_ragged_records` at a concrete ragged
record. -/
theorem parseCSV_drops_ragged_records_witness :
    parseRecords ["a", "b"] [] ["1,2,3"] = parseRecords ["a", "b"] [] [] :=
  parseCSV_drops_ragged_records.1 ["a", "b"] [] "1,2,3" [] (by decide) (by decide)

theorem jsStartsWith_append (p r : String) : jsStartsWith (p ++ r) p = true := by
  simp [jsStartsWith, String.data_append, List.isPrefixOf_iff_prefix]

theorem hasScheme_head (t : String) (h : hasScheme t = true) :
    ∃ c rest, t.data = c :: rest ∧ c.isAlpha = true := by
  rcases ht : t.data with _ | ⟨c, rest⟩
  · rw [hasScheme, ht] at h
    exact absurd h (by simp)
  · rw [hasScheme, ht] at h
    simp only [Bool.and_eq_true] at h
    exact ⟨c, rest, rfl, h.1⟩

theorem not_startsWith_of_alpha (t : String) (c : Char) (rest : List Char)
    (ht : t.data = c :: rest) (hc : c.isAlpha = true) (d : Char) (hd : d.isAlpha = false)
    (pre : String) (hpre : pre.data = d :: pre.data.tail) :
    jsStartsWith t pre = false := by
  rw [jsStartsWith, hpre, ht]
  simp only [List.isPrefixOf]
  cases hdc : d == c
  · simp
  · have : d = c := by simpa using hdc
    rw [this] at hd
    rw [hd] at hc
    exact absurd hc (by simp)

/-- Claim C10, counterexample: the input `"java.script:alert(1)"` uses the
scheme `java.script:`, which is none of `data:`, `http:`, `https:`, `blob:`,
yet `safeUrl` does not return the empty string: the pre-colon text matches
the bare-domain pattern, so `https://` is prepended. -/
theorem safeUrl_scheme_counterexample :
    hasScheme "java.script:alert(1)" = true ∧
    jsStartsWith "java.script:alert(1)" "data:" = false ∧
    jsStartsWith "java.script:alert(1)" "http://" = false ∧
    jsStartsWith "java.script:alert(1)" "https://" = false ∧
    jsStartsWith "java.script:alert(1)" "blob:" = false ∧
    safeUrl (some "java.script:alert(1)") = "https://java.script:alert(1)" ∧
    ("https://java.script:alert(1)" : String) ≠ "" := by
  refine ⟨?_, ?_, ?_, ?_, ?_, ?_, ?_⟩ <;> decide

/-- Claim C10 (amended): `safeUrl` returns either the empty string or a
string beginning with one of `data:`, `http://`, `https://`, `blob:`, `/`,
`./`, `../`; a non-string input yields the empty string; and a string using
any other scheme yields the empty string **unless** its text matches the
bare-domain pattern `[\w\-.]+\.[a-z]{2,}` (in which case `https://` is
prepended). -/
theorem safeUrl_shape :
    (∀ i : Option String, safeUrl i = "" ∨
      jsStartsWith (safeUrl i) "data:" = true ∨
      jsStartsWith (safeUrl i) "http://" = true ∨
      jsStartsWith (safeUrl i) "https://" = true ∨
      jsStartsWith (safeUrl i) "blob:" = true ∨
      jsStartsWith (safeUrl i) "/" = true ∨
      jsStartsWith (safeUrl i) "./" = true ∨
      jsStartsWith (safeUrl i) "../" = true) ∧
    safeUrl none = "" ∧
    (∀ s : String, hasScheme (jsTrim s) = true →
      jsStartsWith (jsTrim s) "data:" = false →
      jsStartsWith (jsTrim s) "http://" = false →
      jsStartsWith (jsTrim s) "https://" = false →
      jsStartsWith (jsTrim s) "blob:" = false →
      domainMatch (jsTrim s) = false →
      safeUrl (some s) = "") := by
  refine ⟨?_, rfl, ?_⟩
  · intro i
    match i with
    | none => exact Or.inl rfl
    | some u =>
      by_cases hu : u = ""
      · exact Or.inl (by simp [safeUrl, hu])
      · rw [safeUrl]
        rw [if_neg hu]
        cases h1 : (jsStartsWith (jsTrim u) "data:" || jsStartsWith (jsTrim u) "http://" ||
            jsStartsWith (jsTrim u) "https://" || jsStartsWith (jsTrim u) "blob:")
        · rw [if_neg (by simp [h1])]
          cases h2 : (jsStartsWith (jsTrim u) "/" || jsStartsWith (jsTrim u) "./" ||
              jsStartsWith (jsTrim u) "../")
          · rw [if_neg (by simp [h2])]
            cases h3 : domainMatch (jsTrim u)
            · rw [if_neg (by simp [h3])]
              exact Or.inl rfl
            · rw [if_pos (by simp [h3])]
              have happ := jsStartsWith_append "https://" (jsTrim u)
              tauto
          · rw [if_pos (by simp [h2])]
            simp only [Bool.or_eq_true] at h2
            tauto
        · rw [if_pos (by simp [h1])]
          simp only [Bool.or_eq_true] at h1
          tauto
  · intro s hs hd hh hh2 hb hdm
    by_cases hu : s = ""
    · subst hu; rfl
    · obtain ⟨c, rest, hct, hca⟩ := hasScheme_head (jsTrim s) hs
      have hs1 : jsStartsWith (jsTrim s) "/" = false :=
        not_startsWith_of_alpha _ c rest hct hca '/' (by decide) "/" rfl
      have hs2 : jsStartsWith (jsTrim s) "./" = false :=
        not_startsWith_of_alpha _ c rest hct hca '.' (by decide) "./" rfl
      have hs3 : jsStartsWith (jsTrim s) "../" = false :=
        not_startsWith_of_alpha _ c rest hct hca '.' (by decide) "../" rfl
      rw [safeUrl, if_neg hu]
      rw [if_neg (by simp [hd, hh, hh2, hb])]
      rw [if_neg (by simp [hs1, hs2, hs3])]
      rw [if_neg (by simp [hdm])]

/-- Witness for `safeUrl_shape`: `javascript:alert(1)` has a scheme, is not
domain-shaped, and is mapped to the empty string. -/
theorem safeUrl_shape_witness : safeUrl (some "javascript:alert(1)") = "" :=
  safeUrl_shape.2.2 "javascript:alert(1)" (by decide) (by decide) (by decide)
    (by decide) (by decide) (by decide)

theorem lookupExact_cons (p : String × String) (rest : Row) (n : String) :
    lookupExact (p :: rest) n = if p.1 = n then some p.2 else lookupExact rest n := by
  by_cases h : p.1 = n
  · simp [lookupExact, List.find?_cons_of_pos, h]
  · simp [lookupExact, List.find?_cons_of_neg, h]

theorem lookupCI_cons (p : String × String) (rest : Row) (n : String) :
    lookupCI (p :: rest) n =
      if jsLower p.1 = jsLower n then some p.2 else lookupCI rest n := by
  by_cases h : jsLower p.1 = jsLower n
  · simp [lookupCI, List.find?_cons_of_pos, h]
  · simp [lookupCI, List.find?_cons_of_neg, h]

theorem lookupExact_eq_none (rest : Row) (n : String)
    (h : ∀ q ∈ rest, jsLower q.1 ≠ jsLower n) : lookupExact rest n = none := by
  simp only [lookupExact, Option.map_eq_none', List.find?_eq_none]
  intro q hq
  simp only [beq_iff_eq]
  intro hqe
  exact h q hq (by rw [hqe])

theorem lookupCI_eq_none (rest : Row) (n : String)
    (h : ∀ q ∈ rest, jsLower q.1 ≠ jsLower n) : lookupCI rest n = none := by
  simp only [lookupCI, Option.map_eq_none', List.find?_eq_none]
  intro q hq
  simp only [beq_iff_eq]
  exact h q hq

/-- Claim C6, counterexample: `getVal` does not trim candidate keys
(`" Institute "` fails where `"Institute"` succeeds), and when a row has two
keys differing only in case the two spellings of the candidate return
different values. -/
theorem getVal_case_ws_counterexample :
    getVal [("Institute", "A")] ["Institute"] = "A" ∧
    getVal [("Institute", "A")] [" Institute "] = "" ∧
    jsTrim " Institute " = "Institute" ∧
    getVal [("AB", "x"), ("ab", "y")] ["aB"] = "x" ∧
    getVal [("AB", "x"), ("ab", "y")] ["ab"] = "y" ∧
    jsLower "aB" = jsLower "ab" ∧
    ("A" : String) ≠ "" ∧ ("x" : String) ≠ "y" := by
  refine ⟨?_, ?_, ?_, ?_, ?_, ?_, ?_, ?_⟩ <;> decide

/-- Claim C6 (amended): on a row whose keys are pairwise distinct after
lowercasing, `getVal` returns the same value for two single candidate keys
that differ only in letter case.  (Keys differing in surrounding whitespace
are not identified, and on rows with case-colliding keys the two spellings
can disagree; see the counterexample.) -/
theorem getVal_case_insensitive (row : Row) :
    ∀ n1 n2 : String,
      (row.map fun p => jsLower p.1).Nodup →
      jsLower n1 = jsLower n2 →
      getVal row [n1] = getVal row [n2] := by
  induction row with
  | nil => intro n1 n2 _ _; rfl
  | cons p rest ih =>
    intro n1 n2 hnd hL
    rw [List.map_cons, List.nodup_cons] at hnd
    obtain ⟨hmem, hnd'⟩ := hnd
    by_cases hc : jsLower p.1 = jsLower n1
    · have hc2 : jsLower p.1 = jsLower n2 := by rw [hc, hL]
      have hrest : ∀ q ∈ rest, jsLower q.1 ≠ jsLower n1 := by
        intro q hq hEq
        exact hmem (List.mem_map.mpr ⟨q, hq, by rw [hEq, ← hc]⟩)
      have hrest2 : ∀ q ∈ rest, jsLower q.1 ≠ jsLower n2 := by
        intro q hq
        rw [← hL]
        exact hrest q hq
      have e1 : lookupExact rest n1 = none := lookupExact_eq_none _ _ hrest
      have e2 : lookupExact rest n2 = none := lookupExact_eq_none _ _ hrest2
      have ci1 : lookupCI (p :: rest) n1 = some p.2 := by
        rw [lookupCI_cons, if_pos hc]
      have ci2 : lookupCI (p :: rest) n2 = some p.2 := by
        rw [lookupCI_cons, if_pos hc2]
      have ex1 : lookupExact (p :: rest) n1 = if p.1 = n1 then some p.2 else none := by
        rw [lookupExact_cons, e1]
      have ex2 : lookupExact (p :: rest) n2 = if p.1 = n2 then some p.2 else none := by
        rw [lookupExact_cons, e2]
      simp only [getVal, ex1, ex2, ci1, ci2]
      by_cases h1 : p.1 = n1 <;> by_cases h2 : p.1 = n2
      · rw [if_pos h1, if_pos h2]
      · rw [if_pos h1, if_neg h2]
      · rw [if_neg h1, if_pos h2]
      · rw [if_neg h1, if_neg h2]
    · have hc2 : jsLower p.1 ≠ jsLower n2 := by rw [← hL]; exact hc
      have h1 : p.1 ≠ n1 := fun h => hc (by rw [h])
      have h2 : p.1 ≠ n2 := fun h => hc2 (by rw [h])
      have ihx := ih n1 n2 hnd' hL
      simp only [getVal] at ihx ⊢
      rw [lookupExact_cons, lookupExact_cons, lookupCI_cons, lookupCI_cons,
        if_neg h1, if_neg h2, if_neg hc, if_neg hc2]
      exact ihx

/-- Witness for `getVal_case_insensitive` on a concrete row. -/
theorem getVal_case_insensitive_witness :
    getVal [("Institute", "A"), ("Program", "X")] ["INSTITUTE"] =
      getVal [("Institute", "A"), ("Program", "X")] ["institute"] :=
  getVal_case_insensitive [("Institute", "A"), ("Program", "X")]
    "INSTITUTE" "institute" (by decide) (by decide)

/-- Claim C5: `getVal` returns the value of the first candidate that
matches, each candidate tried first as an exact key and then
case-insensitively against all row keys, and returns the empty string when
no candidate matches any key. -/
theorem getVal_contract :
    (∀ (row : Row) (names : List String),
      (∀ n ∈ names, lookupExact row n = none ∧ lookupCI row n = none) →
      getVal row names = "") ∧
    (∀ (row : Row) (pre : List String) (n : String) (post : List String) (v : String),
      (∀ m ∈ pre, lookupExact row m = none ∧ lookupCI row m = none) →
      ((lookupExact row n = some v → getVal row (pre ++ n :: post) = v) ∧
       (lookupExact row n = none → lookupCI row n = some v →
         getVal row (pre ++ n :: post) = v))) := by
  constructor
  · intro row names h
    induction names with
    | nil => rfl
    | cons n rest ih =>
      have hn := h n (by simp)
      rw [getVal, hn.1, hn.2]
      exact ih fun m hm => h m (by simp [hm])
  · intro row pre n post v hpre
    induction pre with
    | nil =>
      constructor
      · intro hex
        rw [List.nil_append, getVal, hex]
      · intro hex hci
        rw [List.nil_append, getVal, hex, hci]
    | cons m pre' ih =>
      have hm := hpre m (by simp)
      have ih' := ih fun q hq => hpre q (by simp [hq])
      constructor
      · intro hex
        rw [List.cons_append, getVal, hm.1, hm.2]
        exact ih'.1 hex
      · intro hex hci
        rw [List.cons_append, getVal, hm.1, hm.2]
        exact ih'.2 hex hci

/-- Witness for `getVal_contract`: the second candidate matches exactly
after the first fails. -/
theorem getVal_contract_witness : getVal [("A", "1")] ["b", "A"] = "1" :=
  (getVal_contract.2 [("A", "1")] ["b"] "A" [] "1" (by decide)).1 (by decide)

theorem splitAuxL_no_quote :
    ∀ (l : List Char) (inQ : Bool) (cur : List Char), '"' ∉ cur →
      ∀ f ∈ splitAuxL l inQ cur, '"' ∉ f := by
  intro l
  induction l with
  | nil =>
    intro inQ cur hcur f hf
    simp only [splitAuxL, List.mem_singleton] at hf
    subst hf
    simpa using hcur
  | cons c rest ih =>
    intro inQ cur hcur f hf
    by_cases h1 : c = '"'
    · rw [splitAuxL, if_pos h1] at hf
      exact ih _ _ hcur f hf
    · by_cases h2 : c = ',' ∧ inQ = false
      · rw [splitAuxL, if_neg h1, if_pos h2] at hf
        rcases List.mem_cons.mp hf with hf | hf
        · subst hf; simpa using hcur
        · exact ih _ _ (by simp) f hf
      · rw [splitAuxL, if_neg h1, if_neg h2] at hf
        refine ih _ _ ?_ f hf
        intro hmem
        rcases List.mem_cons.mp hmem with hq | hq
        · exact h1 hq.symm
        · exact hcur hq

theorem mem_jsTrimL (c : Char) (l : List Char) (h : c ∈ jsTrimL l) : c ∈ l := by
  rw [jsTrimL] at h
  rw [List.mem_reverse] at h
  have h2 := (List.dropWhile_sublist isWS).mem h
  rw [List.mem_reverse] at h2
  exact (List.dropWhile_sublist isWS).mem h2

/-- Any row produced by `parseRecords` is `mkRow` of the fields of some
complete buffer whose field count matches the header count. -/
theorem mem_parseRecords (headers : List String) :
    ∀ (lines : List String) (buf : List Char) (row : Row),
      row ∈ parseRecords headers buf lines →
      ∃ b : List Char, (splitCSVLine ⟨b⟩).length = headers.length ∧
        row = mkRow headers (splitCSVLine ⟨b⟩) := by
  intro lines
  induction lines with
  | nil => intro buf row h; simp [parseRecords] at h
  | cons l rest ih =>
    intro buf row h
    rw [parseRecords] at h
    by_cases h1 : countQuotes (buf ++ l.data) % 2 = 1
    · rw [if_pos h1] at h
      exact ih _ row h
    · rw [if_neg h1] at h
      by_cases h2 : (splitCSVLine ⟨buf ++ l.data⟩).length = headers.length
      · rw [if_pos h2] at h
        rcases List.mem_cons.mp h with h | h
        · exact ⟨buf ++ l.data, h2, h⟩
        · exact ih _ row h
      · rw [if_neg h2] at h
        exact ih _ row h

theorem mem_jsSet (acc : Row) (k v : String) (kv : String × String)
    (h : kv ∈ jsSet acc k v) : kv ∈ acc ∨ kv.2 = v := by
  rw [jsSet] at h
  by_cases ha : acc.any fun p => p.1 == k
  · rw [if_pos ha] at h
    rcases List.mem_map.mp h with ⟨q, hq, hqe⟩
    by_cases hk : q.1 == k
    · rw [if_pos hk] at hqe
      right; rw [← hqe]
    · rw [if_neg hk] at hqe
      left; rw [← hqe]; exact hq
  · rw [if_neg ha] at h
    rcases List.mem_append.mp h with h | h
    · exact Or.inl h
    · right
      rw [List.mem_singleton.mp h]

theorem mem_foldl_jsSet :
    ∀ (pairs : List (String × String)) (acc : Row) (kv : String × String),
      kv ∈ pairs.foldl (fun a p => jsSet a (jsTrim p.1) (jsTrim p.2)) acc →
      kv ∈ acc ∨ ∃ p ∈ pairs, kv.2 = jsTrim p.2 := by
  intro pairs
  induction pairs with
  | nil => intro acc kv h; exact Or.inl h
  | cons p rest ih =>
    intro acc kv h
    rw [List.foldl_cons] at h
    rcases ih _ kv h with h2 | ⟨q, hq, hqe⟩
    · rcases mem_jsSet _ _ _ _ h2 with h3 | h3
      · exact Or.inl h3
      · exact Or.inr ⟨p, by simp, h3⟩
    · exact Or.inr ⟨q, by simp [hq], hqe⟩

/-- Claim C8: no field produced by `splitCSVLine` contains a double quote
(quote characters only toggle the state and are dropped, and `""` is never
unescaped), and consequently no cell value of any table produced by
`parseCSV` contains a double quote. -/
theorem splitCSVLine_no_quotes :
    (∀ (line : String), ∀ f ∈ splitCSVLine line, '"' ∉ f.data) ∧
    (∀ (text : String), ∀ row ∈ parseCSV text, ∀ kv ∈ row, '"' ∉ kv.2.data) := by
  have base : ∀ (line : String), ∀ f ∈ splitCSVLine line, '"' ∉ f.data := by
    intro line f hf
    rcases List.mem_map.mp hf with ⟨d, hd, hde⟩
    have := splitAuxL_no_quote line.data false [] (by simp) d hd
    rw [← hde]
    exact this
  refine ⟨base, ?_⟩
  intro text row hrow kv hkv
  rcases mem_parseRecords _ _ _ row hrow with ⟨b, _, hb⟩
  subst hb
  rw [mkRow] at hkv
  rcases mem_foldl_jsSet _ _ _ hkv with h | ⟨p, hp, hpe⟩
  · simp at h
  · rcases List.of_mem_zip hp with ⟨_, hp2⟩
    have hq := base ⟨b⟩ p.2 hp2
    rw [hpe]
    intro hmem
    exact hq (mem_jsTrimL _ _ hmem)

/-- Witness for `splitCSVLine_no_quotes` on a concrete quoted field. -/
theorem splitCSVLine_no_quotes_witness : '"' ∉ ("b,c" : String).data :=
  splitCSVLine_no_quotes.1 "a,\"b,c\",d" "b,c" (by decide)

theorem mem_splitLinesAux (acc l : List Char) :
    ∀ x ∈ splitLinesAux acc l, ∀ c ∈ x, c ∈ acc ∨ c ∈ l := by
  induction acc, l using splitLinesAux.induct with
  | case1 acc =>
    intro x hx c hc
    rw [splitLinesAux] at hx
    rw [List.mem_singleton] at hx
    subst hx
    exact Or.inl (List.mem_reverse.mp hc)
  | case2 acc rest ih =>
    intro x hx c hc
    rw [splitLinesAux] at hx
    rcases List.mem_cons.mp hx with hx | hx
    · subst hx
      exact Or.inl (List.mem_reverse.mp hc)
    · rcases ih x hx c hc with h | h
      · simp at h
      · exact Or.inr (by simp [h])
  | case3 acc rest ih =>
    intro x hx c hc
    rw [splitLinesAux] at hx
    rcases List.mem_cons.mp hx with hx | hx
    · subst hx
      exact Or.inl (List.mem_reverse.mp hc)
    · rcases ih x hx c hc with h | h
      · simp at h
      · exact Or.inr (by simp [h])
  | case4 acc c0 rest hn hr ih =>
    intro x hx c hc
    rw [splitLinesAux.eq_4 _ _ _ hn hr] at hx
    rcases ih x hx c hc with h | h
    · rcases List.mem_cons.mp h with h | h
      · exact Or.inr (by simp [h])
      · exact Or.inl h
    · exact Or.inr (by simp [h])

theorem parseRecords_clean (headers : List String) :
    ∀ ls : List String,
      (∀ l ∈ ls, countQuotes l.data = 0) →
      (∀ l ∈ ls, (splitCSVLine l).length = headers.length) →
      parseRecords headers [] ls = ls.map fun l => mkRow headers (splitCSVLine l) := by
  intro ls
  induction ls with
  | nil => intro _ _; rfl
  | cons l rest ih =>
    intro hq hlen
    rw [parseRecords]
    have h0 : countQuotes ([] ++ l.data) = 0 := by
      simpa using hq l (by simp)
    have hstr : (⟨[] ++ l.data⟩ : String) = l := by simp
    rw [if_neg (by omega)]
    rw [hstr]
    rw [if_pos (hlen l (by simp))]
    rw [List.map_cons]
    rw [ih (fun m hm => hq m (by simp [hm])) (fun m hm => hlen m (by simp [hm]))]

/-- Claim C1: on a CSV text without quote characters whose body lines all
have exactly as many comma-separated fields as the header, `parseCSV`
returns one row per body line in source order, each row zipping the trimmed
headers with the trimmed fields of its line; in particular the 2-row
example parses to the expected table. -/
theorem parseCSV_wellformed :
    (∀ text : String, '"' ∉ text.data →
      (∀ l ∈ (splitLinesJS text).tail,
        (splitCSVLine l).length =
          (splitCSVLine ((splitLinesJS text).headD "")).length) →
      parseCSV text =
        ((splitLinesJS text).tail).map fun l =>
          mkRow (splitCSVLine ((splitLinesJS text).headD "")) (splitCSVLine l)) ∧
    parseCSV "Institute,Program\nA,X\nB,Y" =
      [[("Institute", "A"), ("Program", "X")],
       [("Institute", "B"), ("Program", "Y")]] := by
  constructor
  · intro text hq hN
    have hlineq : ∀ l ∈ splitLinesJS text, countQuotes l.data = 0 := by
      intro l hl
      rcases List.mem_map.mp hl with ⟨x, hx, hxe⟩
      rw [countQuotes, List.countP_eq_zero]
      intro a ha hqa
      have ha' : a ∈ x := by rw [← hxe] at ha; exact ha
      rcases mem_splitLinesAux [] text.data x hx a ha' with h | h
      · simp at h
      · have : a = '"' := by simpa using hqa
        rw [this] at h
        exact hq h
    have := parseRecords_clean (splitCSVLine ((splitLinesJS text).headD ""))
      ((splitLinesJS text).tail)
      (fun l hl => hlineq l ((List.tail_sublist _).mem hl)) hN
    exact this
  · rfl

/-- Witness for `parseCSV_wellformed` at the 2-row example text. -/
theorem parseCSV_wellformed_witness :
    parseCSV "a,b\nc , d\ne,f" =
      ((splitLinesJS "a,b\nc , d\ne,f").tail).map fun l =>
        mkRow (splitCSVLine ((splitLinesJS "a,b\nc , d\ne,f").headD ""))
          (splitCSVLine l) :=
  parseCSV_wellformed.1 "a,b\nc , d\ne,f" (by decide) (by decide)

theorem jsSet_keys (acc : Row) (k v : String) :
    (jsSet acc k v).map Prod.fst =
      if k ∈ acc.map Prod.fst then acc.map Prod.fst else acc.map Prod.fst ++ [k] := by
  rw [jsSet]
  by_cases ha : acc.any fun p => p.1 == k
  · have hk : k ∈ acc.map Prod.fst := by
      rcases List.any_eq_true.mp ha with ⟨p, hp, hpe⟩
      exact List.mem_map.mpr ⟨p, hp, by simpa using hpe.symm⟩
    rw [if_pos ha, if_pos hk]
    rw [List.map_map]
    apply List.map_congr_left
    intro p _
    by_cases hpk : p.1 = k
    · simp [hpk]
    · simp [hpk]
  · have hk : k ∉ acc.map Prod.fst := by
      intro hmem
      rcases List.mem_map.mp hmem with ⟨p, hp, hpe⟩
      exact ha (List.any_eq_true.mpr ⟨p, hp, by simpa using hpe⟩)
    rw [if_neg ha, if_neg hk]
    simp

theorem firstDedupAux_congr :
    ∀ (l : List String) (s1 s2 : List String), (∀ x, x ∈ s1 ↔ x ∈ s2) →
      firstDedupAux s1 l = firstDedupAux s2 l := by
  intro l
  induction l with
  | nil => intro s1 s2 _; rfl
  | cons k ks ih =>
    intro s1 s2 hs
    rw [firstDedupAux, firstDedupAux]
    by_cases hk : k ∈ s1
    · rw [if_pos hk, if_pos ((hs k).mp hk)]
      exact ih s1 s2 hs
    · rw [if_neg hk, if_neg (fun h => hk ((hs k).mpr h))]
      rw [ih (k :: s1) (k :: s2) (by intro x; simp [hs x])]

theorem foldl_jsSet_keys :
    ∀ (pairs : List (String × String)) (acc : Row),
      ((pairs.foldl (fun a p => jsSet a (jsTrim p.1) (jsTrim p.2)) acc).map Prod.fst) =
        acc.map Prod.fst ++
          firstDedupAux (acc.map Prod.fst) (pairs.map fun p => jsTrim p.1) := by
  intro pairs
  induction pairs with
  | nil => intro acc; simp [firstDedupAux]
  | cons p rest ih =>
    intro acc
    rw [List.foldl_cons, ih, jsSet_keys, List.map_cons, firstDedupAux]
    by_cases hk : jsTrim p.1 ∈ acc.map Prod.fst
    · rw [if_pos hk, if_pos hk]
    · rw [if_neg hk, if_neg hk]
      rw [List.append_assoc, List.singleton_append]
      congr 1
      congr 1
      apply firstDedupAux_congr
      intro x
      simp [or_comm]

theorem mem_firstDedupAux :
    ∀ (l seen : List String) (x : String),
      x ∈ firstDedupAux seen l ↔ x ∈ l ∧ x ∉ seen := by
  intro l
  induction l with
  | nil => intro seen x; simp [firstDedupAux]
  | cons k ks ih =>
    intro seen x
    rw [firstDedupAux]
    by_cases hk : k ∈ seen
    · rw [if_pos hk, ih]
      constructor
      · rintro ⟨h1, h2⟩
        exact ⟨by simp [h1], h2⟩
      · rintro ⟨h1, h2⟩
        rcases List.mem_cons.mp h1 with h | h
        · subst h; exact absurd hk h2
        · exact ⟨h, h2⟩
    · rw [if_neg hk]
      constructor
      · intro h
        rcases List.mem_cons.mp h with h | h
        · subst h; exact ⟨by simp, hk⟩
        · rcases (ih _ _).mp h with ⟨h1, h2⟩
          exact ⟨by simp [h1], fun hx => h2 (by simp [hx])⟩
      · rintro ⟨h1, h2⟩
        rcases List.mem_cons.mp h1 with h | h
        · subst h; simp
        · by_cases hxk : x = k
          · subst hxk; simp
          · refine List.mem_cons.mpr (Or.inr ((ih _ _).mpr ⟨h, ?_⟩))
            intro hx
            rcases List.mem_cons.mp hx with hx | hx
            · exact hxk hx
            · exact h2 hx

theorem nodup_firstDedupAux :
    ∀ (l seen : List String), (firstDedupAux seen l).Nodup := by
  intro l
  induction l with
  | nil => intro seen; simp [firstDedupAux]
  | cons k ks ih =>
    intro seen
    rw [firstDedupAux]
    by_cases hk : k ∈ seen
    · rw [if_pos hk]; exact ih seen
    · rw [if_neg hk]
      refine List.nodup_cons.mpr ⟨?_, ih _⟩
      intro hmem
      exact ((mem_firstDedupAux _ _ _).mp hmem).2 (by simp)

/-- Claim C4: every row of every parsed table has exactly the key set of the
trimmed header names of its source text, and its keys are distinct. -/
theorem parseCSV_row_keys :
    ∀ (text : String), ∀ row ∈ parseCSV text,
      (∀ k, k ∈ row.map Prod.fst ↔
        k ∈ (splitCSVLine ((splitLinesJS text).headD "")).map jsTrim) ∧
      (row.map Prod.fst).Nodup := by
  intro text row hrow
  rcases mem_parseRecords _ _ _ row hrow with ⟨b, hblen, hb⟩
  subst hb
  rw [mkRow, foldl_jsSet_keys]
  have hz : ((splitCSVLine ((splitLinesJS text).headD "")).zip
      (splitCSVLine ⟨b⟩)).map (fun p => jsTrim p.1) =
      (splitCSVLine ((splitLinesJS text).headD "")).map jsTrim := by
    rw [show (fun p : String × String => jsTrim p.1) = (jsTrim ∘ Prod.fst) from rfl]
    rw [← List.map_map, List.map_fst_zip _ _ (le_of_eq hblen.symm)]
  rw [hz]
  simp only [List.map_nil, List.nil_append]
  constructor
  · intro k
    rw [mem_firstDedupAux]
    simp
  · exact nodup_firstDedupAux _ _

/-- Witness for `parseCSV_row_keys` at a concrete table. -/
theorem parseCSV_row_keys_witness :
    (([("a", "c"), ("b", "d")] : Row).map Prod.fst).Nodup :=
  (parseCSV_row_keys "a,b\nc,d" [("a", "c"), ("b", "d")] (by decide)).2

theorem merge_perm (le : α → α → Bool) (l r : List α) :
    (merge le l r).Perm (l ++ r) := by
  refine merge.induct le (fun l r => (merge le l r).Perm (l ++ r)) ?_ ?_ ?_ ?_ l r
  · intro r
    simp [merge]
  · intro a l'
    simp [merge]
  · intro a l b r hle ih
    rw [merge, if_pos hle]
    exact ih.cons a
  · intro a l b r hle ih
    rw [merge, if_neg hle]
    exact (ih.cons b).trans List.perm_middle.symm

theorem merge_pairwise (p : α → Prop) (le : α → α → Bool)
    (h1 : ∀ a b, p a → ¬ p b → le a b = false)
    (h2 : ∀ a b, ¬ p a → p b → le a b = true)
    (l r : List α) :
    l.Pairwise (fun a b => p a → p b) → r.Pairwise (fun a b => p a → p b) →
      (merge le l r).Pairwise (fun a b => p a → p b) := by
  refine merge.induct le
    (fun l r => l.Pairwise (fun a b => p a → p b) → r.Pairwise (fun a b => p a → p b) →
      (merge le l r).Pairwise (fun a b => p a → p b)) ?_ ?_ ?_ ?_ l r
  · intro r _ hr
    simpa [merge] using hr
  · intro a l' hl _
    simpa [merge] using hl
  · intro a l b r hle ih hl hr
    rw [merge, if_pos hle]
    rcases List.pairwise_cons.mp hl with ⟨hal, hl'⟩
    refine List.pairwise_cons.mpr ⟨?_, ih hl' hr⟩
    intro x hx hpa
    have hpb : p b := by
      by_cases hb : p b
      · exact hb
      · exact absurd hle (by simp [h1 a b hpa hb])
    rcases List.mem_append.mp ((merge_perm le l (b :: r)).mem_iff.mp hx) with hx1 | hx2
    · exact hal x hx1 hpa
    · rcases List.mem_cons.mp hx2 with hxe | hx3
      · rw [hxe]; exact hpb
      · exact (List.pairwise_cons.mp hr).1 x hx3 hpb
  · intro a l b r hle ih hl hr
    rw [merge, if_neg hle]
    rcases List.pairwise_cons.mp hr with ⟨hbr, hr'⟩
    refine List.pairwise_cons.mpr ⟨?_, ih hl hr'⟩
    intro x hx hpb
    have hpa : p a := by
      by_cases hpa : p a
      · exact hpa
      · exact absurd (h2 a b hpa hpb) hle
    rcases List.mem_append.mp ((merge_perm le (a :: l) r).mem_iff.mp hx) with hx1 | hx2
    · rcases List.mem_cons.mp hx1 with hxe | hx3
      · rw [hxe]; exact hpa
      · exact (List.pairwise_cons.mp hl).1 x hx3 hpa
    · exact hbr x hx2 hpb

theorem msort_perm (le : α → α → Bool) (l : List α) : (msort le l).Perm l := by
  refine msort.induct le (fun l => (msort le l).Perm l) ?_ ?_ l
  · intro x hx
    rw [msort, dif_pos hx]
  · intro x hx ih1 ih2
    rw [msort, dif_neg hx]
    exact ((merge_perm le _ _).trans (ih1.append ih2)).trans
      (List.Perm.of_eq (List.take_append_drop _ _))

theorem msort_pairwise (p : α → Prop) (le : α → α → Bool)
    (h1 : ∀ a b, p a → ¬ p b → le a b = false)
    (h2 : ∀ a b, ¬ p a → p b → le a b = true)
    (l : List α) :
    (msort le l).Pairwise (fun a b => p a → p b) := by
  refine msort.induct le (fun l => (msort le l).Pairwise (fun a b => p a → p b)) ?_ ?_ l
  · intro x hx
    rw [msort, dif_pos hx]
    rcases x with _ | ⟨a, _ | ⟨b, t⟩⟩
    · simp
    · simp
    · simp at hx
  · intro x hx ih1 ih2
    rw [msort, dif_neg hx]
    exact merge_pairwise p le h1 h2 _ _ ih1 ih2

theorem sortCmp_null_first (metric : String) (od : Bool) (a b : SItem)
    (ha : sortGetVal a metric = SVal.null) (hb : sortGetVal b metric ≠ SVal.null) :
    sortKeeps (sortCmp metric od a b) = false := by
  rcases hvb : sortGetVal b metric with _ | m | s
  · exact absurd hvb hb
  · simp [sortCmp, sortKeeps, ha, hvb]
  · simp [sortCmp, sortKeeps, ha, hvb]

theorem sortCmp_null_second (metric : String) (od : Bool) (a b : SItem)
    (ha : sortGetVal a metric ≠ SVal.null) (hb : sortGetVal b metric = SVal.null) :
    sortKeeps (sortCmp metric od a b) = true := by
  rcases hva : sortGetVal a metric with _ | m | s
  · exact absurd hva ha
  · simp [sortCmp, sortKeeps, hva, hb]
  · simp [sortCmp, sortKeeps, hva, hb]

/-- Claim C9 (amended): `applyClientSort` returns a permutation of the input
(the input array itself is copied, not mutated), and every element whose
metric value resolves to JS `null` (a null element, or — for non-rank
metrics — a missing, null, or empty looked-up value) is placed after every
element whose metric value resolves to a number or string.  An element whose
value is merely non-parseable is *not* placed last in general (see the
counterexample). -/
theorem applyClientSort_perm_nulls_last (results : List SItem) (metricSel : String) :
    (applyClientSort results metricSel).Perm results ∧
    (applyClientSort results metricSel).Pairwise (fun a b =>
      sortGetVal a (if metricSel = "" then "Predicted Closing Rank" else metricSel) =
        SVal.null →
      sortGetVal b (if metricSel = "" then "Predicted Closing Rank" else metricSel) =
        SVal.null) := by
  constructor
  · exact msort_perm _ results
  · exact msort_pairwise
      (fun x =>
        sortGetVal x (if metricSel = "" then "Predicted Closing Rank" else metricSel) =
          SVal.null)
      _
      (fun a b ha hb => sortCmp_null_first _ _ a b ha hb)
      (fun a b ha hb => sortCmp_null_second _ _ a b ha hb)
      results

/-- Witness for `applyClientSort_perm_nulls_last`: a null element is moved
behind the valued one, and the result is a permutation. -/
theorem applyClientSort_perm_nulls_last_witness :
    (applyClientSort [none, some [("placement_score", JVal.jstr "5")]]
      "placement_score").Perm [none, some [("placement_score", JVal.jstr "5")]] :=
  (applyClientSort_perm_nulls_last [none, some [("placement_score", JVal.jstr "5")]]
    "placement_score").1

/-- Claim C9, counterexample: under the default metric
`Predicted Closing Rank` a non-parseable value becomes `NaN`, every
comparison against it returns `NaN` (treated as a tie), and the stable sort
leaves the non-parseable element *before* the parseable one. -/
theorem applyClientSort_nonparseable_counterexample :
    parseFloatS "abc" = JNum.nan ∧
    parseFloatS "5" = JNum.fin 5 ∧
    applyClientSort
      [some [("Predicted Closing Rank", JVal.jstr "abc")],
       some [("Predicted Closing Rank", JVal.jstr "5")]] "" =
      [some [("Predicted Closing Rank", JVal.jstr "abc")],
       some [("Predicted Closing Rank", JVal.jstr "5")]] := by
  refine ⟨by decide, by decide, ?_⟩
  show msort _ _ = _
  rw [msort]
  rw [dif_neg (by norm_num)]
  norm_num
  rw [msort]
  rw [dif_pos (by norm_num)]
  rw [msort]
  rw [dif_pos (by norm_num)]
  rw [merge]
  rw [if_pos (by decide)]
  rw [merge]

theorem char_toNat_inj {c d : Char} (h : c.toNat = d.toNat) : c = d :=
  Char.ext (UInt32.ext h)

theorem char_toNat_ofNat_valid (n : Nat) (h : n.isValidChar) :
    (Char.ofNat n).toNat = n := by
  rw [Char.ofNat, dif_pos h]
  rfl

theorem toLower_toNat (c : Char) :
    (Char.toLower c).toNat =
      if 65 ≤ c.toNat ∧ c.toNat ≤ 90 then c.toNat + 32 else c.toNat := by
  rw [Char.toLower]
  by_cases h : 65 ≤ c.toNat ∧ c.toNat ≤ 90
  · rw [if_pos ⟨h.1, h.2⟩, if_pos h,
      char_toNat_ofNat_valid _ (Or.inl (by omega))]
  · rw [if_neg (by exact fun hx => h ⟨hx.1, hx.2⟩), if_neg h]

theorem toLower_eq_self (c : Char) (h : ¬ (65 ≤ c.toNat ∧ c.toNat ≤ 90)) :
    Char.toLower c = c := by
  rw [Char.toLower, if_neg (by exact fun hx => h ⟨hx.1, hx.2⟩)]

theorem isWS_iff_toNat (c : Char) :
    isWS c = true ↔
      (c.toNat = 32 ∨ c.toNat = 9 ∨ c.toNat = 10 ∨ c.toNat = 13 ∨
       c.toNat = 11 ∨ c.toNat = 12) := by
  have hch : ∀ d : Char, c = d ↔ c.toNat = d.toNat :=
    fun d => ⟨fun h => by rw [h], char_toNat_inj⟩
  rw [isWS]
  simp only [Bool.or_eq_true, decide_eq_true_eq]
  rw [hch ' ', hch '\t', hch '\n', hch '\r', hch '\x0b', hch '\x0c']
  simp only [show (' '.toNat) = 32 from rfl, show ('\t'.toNat) = 9 from rfl,
    show ('\n'.toNat) = 10 from rfl, show ('\x0d'.toNat) = 13 from rfl,
    show ('\x0b'.toNat) = 11 from rfl, show ('\x0c'.toNat) = 12 from rfl]
  tauto

theorem isWS_toLower (c : Char) : isWS (Char.toLower c) = isWS c := by
  by_cases h : 65 ≤ c.toNat ∧ c.toNat ≤ 90
  · have h1 : (Char.toLower c).toNat = c.toNat + 32 := by
      rw [toLower_toNat, if_pos h]
    have h2 : isWS (Char.toLower c) = false := by
      rw [← Bool.not_eq_true, isWS_iff_toNat, h1]
      omega
    have h3 : isWS c = false := by
      rw [← Bool.not_eq_true, isWS_iff_toNat]
      omega
    rw [h2, h3]
  · rw [toLower_eq_self c h]

theorem toLower_idem (c : Char) :
    Char.toLower (Char.toLower c) = Char.toLower c := by
  by_cases h : 65 ≤ c.toNat ∧ c.toNat ≤ 90
  · have h1 : (Char.toLower c).toNat = c.toNat + 32 := by
      rw [toLower_toNat, if_pos h]
    exact toLower_eq_self _ (by omega)
  · rw [toLower_eq_self c h, toLower_eq_self c h]

/-- Trailing-whitespace trim, the second half of `jsTrimL`. -/
def trimEndWS (l : List Char) : List Char := (l.reverse.dropWhile isWS).reverse

theorem jsTrimL_eq (l : List Char) : jsTrimL l = trimEndWS (l.dropWhile isWS) := rfl

theorem dropWhile_all {p : Char → Bool} {l : List Char}
    (h : ∀ c ∈ l, p c = true) : l.dropWhile p = [] :=
  List.dropWhile_eq_nil_iff.mpr h

theorem dropWhile_append_all {p : Char → Bool} {a : List Char} (b : List Char)
    (h : ∀ c ∈ a, p c = true) : (a ++ b).dropWhile p = b.dropWhile p := by
  rw [List.dropWhile_append, dropWhile_all h]
  simp

theorem dropWhile_append_ex {p : Char → Bool} {a : List Char} (b : List Char)
    (h : ∃ c ∈ a, p c = false) : (a ++ b).dropWhile p = a.dropWhile p ++ b := by
  rw [List.dropWhile_append]
  have hne : a.dropWhile p ≠ [] := by
    intro hnil
    rcases h with ⟨c, hc, hcf⟩
    have := List.dropWhile_eq_nil_iff.mp hnil c hc
    rw [hcf] at this
    exact absurd this (by simp)
  rw [if_neg (by simpa using hne)]

theorem dropWhile_nonws {l : List Char} (h : ∀ c ∈ l, isWS c = false) :
    l.dropWhile isWS = l := by
  cases l with
  | nil => rfl
  | cons c t =>
    rw [List.dropWhile_cons, if_neg (by simp [h c (by simp)])]

theorem dropWhile_head_false {p : Char → Bool} :
    ∀ {m : List Char} {d : Char} {t' : List Char},
      m.dropWhile p = d :: t' → p d = false := by
  intro m
  induction m with
  | nil => intro d t' h; simp at h
  | cons a m' ih =>
    intro d t' h
    rw [List.dropWhile_cons] at h
    by_cases hp : p a = true
    · rw [if_pos hp] at h
      exact ih h
    · rw [if_neg hp] at h
      have : a = d := (List.cons.injEq _ _ _ _ ▸ h).1
      rw [← this]
      simpa using hp

theorem trimEndWS_allws {l : List Char} (h : ∀ c ∈ l, isWS c = true) :
    trimEndWS l = [] := by
  rw [trimEndWS, dropWhile_all (fun c hc => h c (List.mem_reverse.mp hc))]
  rfl

theorem trimEndWS_append_allws {a b : List Char} (h : ∀ c ∈ b, isWS c = true) :
    trimEndWS (a ++ b) = trimEndWS a := by
  rw [trimEndWS, trimEndWS, List.reverse_append,
    dropWhile_append_all _ (fun c hc => h c (List.mem_reverse.mp hc))]

theorem trimEndWS_nonws {l : List Char} (h : ∀ c ∈ l, isWS c = false) :
    trimEndWS l = l := by
  rw [trimEndWS, dropWhile_nonws (fun c hc => h c (List.mem_reverse.mp hc)),
    List.reverse_reverse]

theorem trimEndWS_append_ex {a b : List Char} (h : ∃ c ∈ b, isWS c = false) :
    trimEndWS (a ++ b) = a ++ trimEndWS b := by
  rcases h with ⟨x, hx, hxf⟩
  rw [trimEndWS, trimEndWS, List.reverse_append,
    dropWhile_append_ex _ ⟨x, List.mem_reverse.mpr hx, hxf⟩,
    List.reverse_append, List.reverse_reverse]

theorem trimEndWS_cons_ex {d : Char} {t : List Char}
    (h : ∃ c ∈ t, isWS c = false) : trimEndWS (d :: t) = d :: trimEndWS t := by
  have := trimEndWS_append_ex (a := [d]) (b := t) h
  simpa using this

theorem words_cons_ws {d : Char} (t : List Char) (h : isWS d = true) :
    splitWordsAux [] (d :: t) = splitWordsAux [] t := by
  rw [splitWordsAux, if_pos h, if_pos rfl]

theorem words_allws :
    ∀ (t : List Char), (∀ c ∈ t, isWS c = true) →
      ∀ cur, splitWordsAux cur t = splitWordsAux cur [] := by
  intro t
  induction t with
  | nil => intro _ _; rfl
  | cons d t' ih =>
    intro h cur
    have hd : isWS d = true := h d (by simp)
    have ht' : splitWordsAux [] t' = [] := by
      rw [ih (fun c hc => h c (by simp [hc])) [], splitWordsAux, if_pos rfl]
    by_cases hc : cur = []
    · subst hc
      rw [words_cons_ws t' hd]
      exact ih (fun c hc => h c (by simp [hc])) []
    · rw [splitWordsAux.eq_2, if_pos hd, if_neg hc, ht',
        splitWordsAux.eq_1, if_neg hc]

theorem words_word :
    ∀ (w : List Char), (∀ c ∈ w, isWS c = false) →
      ∀ (cur rest : List Char),
        splitWordsAux cur (w ++ rest) = splitWordsAux (w.reverse ++ cur) rest := by
  intro w
  induction w with
  | nil => intro _ cur rest; simp
  | cons a w' ih =>
    intro h cur rest
    have ha : isWS a = false := h a (by simp)
    rw [List.cons_append, splitWordsAux, if_neg (by simp [ha]),
      ih (fun c hc => h c (by simp [hc])) (a :: cur) rest,
      List.reverse_cons, List.append_assoc, List.singleton_append]

theorem words_ne_of_cur :
    ∀ (t cur : List Char), cur ≠ [] → splitWordsAux cur t ≠ [] := by
  intro t
  induction t with
  | nil =>
    intro cur hc
    rw [splitWordsAux, if_neg hc]
    simp
  | cons d t' ih =>
    intro cur hc
    rw [splitWordsAux]
    by_cases hd : isWS d = true
    · rw [if_pos hd, if_neg hc]
      simp
    · rw [if_neg hd]
      exact ih (d :: cur) (by simp)

theorem words_ne_of_ex :
    ∀ (m : List Char), (∃ c ∈ m, isWS c = false) → wordsOf m ≠ [] := by
  intro m
  induction m with
  | nil => rintro ⟨c, hc, _⟩; simp at hc
  | cons d t ih =>
    rintro ⟨c, hc, hcf⟩
    by_cases hd : isWS d = true
    · have hct : c ∈ t := by
        rcases List.mem_cons.mp hc with hce | hct
        · rw [hce] at hcf; rw [hcf] at hd; exact absurd hd (by simp)
        · exact hct
      rw [wordsOf, words_cons_ws t hd]
      exact ih ⟨c, hct, hcf⟩
    · rw [wordsOf, splitWordsAux, if_neg hd]
      exact words_ne_of_cur t [d] (by simp)

theorem words_good :
    ∀ (t cur : List Char), (∀ c ∈ cur, isWS c = false) →
      ∀ w ∈ splitWordsAux cur t, w ≠ [] ∧ ∀ c ∈ w, isWS c = false := by
  intro t
  induction t with
  | nil =>
    intro cur hcur w hw
    rw [splitWordsAux] at hw
    by_cases hc : cur = []
    · rw [if_pos hc] at hw; simp at hw
    · rw [if_neg hc] at hw
      rw [List.mem_singleton] at hw
      subst hw
      exact ⟨by simpa using hc, fun c hc2 => hcur c (List.mem_reverse.mp hc2)⟩
  | cons d t' ih =>
    intro cur hcur w hw
    rw [splitWordsAux] at hw
    by_cases hd : isWS d = true
    · rw [if_pos hd] at hw
      by_cases hc : cur = []
      · rw [if_pos hc] at hw
        exact ih [] (by simp) w hw
      · rw [if_neg hc] at hw
        rcases List.mem_cons.mp hw with hwe | hw2
        · subst hwe
          exact ⟨by simpa using hc, fun c hc2 => hcur c (List.mem_reverse.mp hc2)⟩
        · exact ih [] (by simp) w hw2
    · rw [if_neg hd] at hw
      refine ih (d :: cur) ?_ w hw
      intro c hc2
      rcases List.mem_cons.mp hc2 with hce | hcc
      · rw [hce]; simpa using hd
      · exact hcur c hcc

theorem words_map_toLower :
    ∀ (t cur : List Char),
      splitWordsAux (cur.map Char.toLower) (t.map Char.toLower) =
        (splitWordsAux cur t).map (List.map Char.toLower) := by
  intro t
  induction t with
  | nil =>
    intro cur
    rw [List.map_nil, splitWordsAux, splitWordsAux]
    by_cases hc : cur = []
    · rw [if_pos (by simp [hc]), if_pos hc]
      rfl
    · rw [if_neg (by simp [hc]), if_neg hc]
      simp [List.map_reverse]
  | cons d t' ih =>
    intro cur
    rw [List.map_cons, splitWordsAux, splitWordsAux, isWS_toLower]
    by_cases hd : isWS d = true
    · rw [if_pos hd, if_pos hd]
      by_cases hc : cur = []
      · rw [if_pos (by simp [hc]), if_pos hc]
        have := ih []
        simpa using this
      · rw [if_neg (by simp [hc]), if_neg hc]
        have := ih []
        rw [List.map_cons, List.map_reverse]
        simpa using this
    · rw [if_neg hd, if_neg hd]
      have := ih (d :: cur)
      simpa using this

theorem collapse_nonws_append :
    ∀ (w : List Char), (∀ c ∈ w, isWS c = false) → ∀ m : List Char,
      collapseF false (w ++ m) = w ++ collapseF false m := by
  intro w
  induction w with
  | nil => intro _ m; simp
  | cons a w' ih =>
    intro h m
    have ha : isWS a = false := h a (by simp)
    rw [List.cons_append, collapseF, if_neg (by simp [ha]),
      ih (fun c hc => h c (by simp [hc])) m, List.cons_append]

theorem collapse_true_eq :
    ∀ m : List Char, collapseF true m = collapseF false (m.dropWhile isWS) := by
  intro m
  induction m with
  | nil => rfl
  | cons c m' ih =>
    by_cases hc : isWS c = true
    · rw [collapseF, if_pos hc, if_pos rfl, ih, List.dropWhile_cons, if_pos hc]
    · rw [collapseF, if_neg hc, List.dropWhile_cons, if_neg hc,
        collapseF.eq_2, if_neg hc]

theorem dropWhile_trimEndWS_comm :
    ∀ x : List Char, (trimEndWS x).dropWhile isWS = trimEndWS (x.dropWhile isWS) := by
  intro x
  induction x with
  | nil => rfl
  | cons c x' ih =>
    by_cases hc : isWS c = true
    · rw [List.dropWhile_cons, if_pos hc]
      by_cases hex : ∃ y ∈ x', isWS y = false
      · rw [trimEndWS_cons_ex hex, List.dropWhile_cons, if_pos hc, ih]
      · push_neg at hex
        have hall : ∀ y ∈ x', isWS y = true := by
          intro y hy
          have := hex y hy
          cases hyy : isWS y
          · exact absurd hyy this
          · rfl
        rw [trimEndWS_allws (by
            intro y hy
            rcases List.mem_cons.mp hy with hye | hy2
            · rw [hye]; exact hc
            · exact hall y hy2),
          dropWhile_all hall, trimEndWS_allws (by simp)]
        rfl
    · rw [List.dropWhile_cons, if_neg hc]
      by_cases hex : ∃ y ∈ x', isWS y = false
      · rw [trimEndWS_cons_ex hex, List.dropWhile_cons, if_neg hc]
      · push_neg at hex
        have hall : ∀ y ∈ x', isWS y = true := by
          intro y hy
          have := hex y hy
          cases hyy : isWS y
          · exact absurd hyy this
          · rfl
        have h1 : trimEndWS (c :: x') = [c] := by
          have := trimEndWS_append_allws (a := [c]) hall
          rw [List.singleton_append] at this
          rw [this, trimEndWS_nonws (by intro y hy; simp at hy; rw [hy]; simpa using hc)]
        rw [h1, List.dropWhile_cons, if_neg hc]

theorem collapse_trim_eq_intercal :
    ∀ (n : Nat) (l : List Char), l.length ≤ n →
      collapseF false (jsTrimL l) = intercalW (wordsOf l) := by
  intro n
  induction n with
  | zero =>
    intro l hl
    have : l = [] := List.eq_nil_of_length_eq_zero (by omega)
    subst this
    rfl
  | succ n ih =>
    intro l hl
    rcases l with _ | ⟨c, t⟩
    · rfl
    · by_cases hws : isWS c = true
      · have h1 : jsTrimL (c :: t) = jsTrimL t := by
          rw [jsTrimL, jsTrimL, List.dropWhile_cons, if_pos hws]
        have h2 : wordsOf (c :: t) = wordsOf t := words_cons_ws t hws
        rw [h1, h2]
        exact ih t (by simp at hl; omega)
      · have hpc : (fun x => !isWS x) c = true := by simp [hws]
        set w := (c :: t).takeWhile (fun x => !isWS x) with hw
        set rest := (c :: t).dropWhile (fun x => !isWS x) with hrest
        have hsplit : w ++ rest = c :: t := List.takeWhile_append_dropWhile _ _
        have hwne : w ≠ [] := by
          rw [hw, List.takeWhile_cons, if_pos hpc]
          simp
        have hwall : ∀ x ∈ w, isWS x = false := by
          intro x hx
          have := List.mem_takeWhile_imp hx
          simpa using this
        have hdw : jsTrimL (c :: t) = trimEndWS (c :: t) := by
          rw [jsTrimL_eq, List.dropWhile_cons, if_neg hws]
        by_cases hall : ∀ x ∈ rest, isWS x = true
        · have htr : jsTrimL (c :: t) = w := by
            rw [hdw, ← hsplit, trimEndWS_append_allws hall, trimEndWS_nonws hwall]
          have hwords : wordsOf (c :: t) = [w] := by
            rw [wordsOf, ← hsplit, words_word w hwall [] rest, List.append_nil,
              words_allws rest hall, splitWordsAux,
              if_neg (by simpa using hwne), List.reverse_reverse]
          rw [htr, hwords]
          have := collapse_nonws_append w hwall []
          simpa [intercalW, collapseF] using this
        · push_neg at hall
          rcases hall with ⟨x, hx, hxns⟩
          have hxf : isWS x = false := by
            cases hxx : isWS x
            · rfl
            · exact absurd hxx hxns
          rcases hre : rest with _ | ⟨d, rest'⟩
          · rw [hre] at hx; simp at hx
          · have hd : isWS d = true := by
              have hh := dropWhile_head_false (hrest.symm.trans hre)
              simpa using hh
            have hx' : ∃ y ∈ rest', isWS y = false := by
              rcases List.mem_cons.mp (hre ▸ hx) with hxe | hm
              · rw [hxe] at hxf; rw [hxf] at hd; exact absurd hd (by simp)
              · exact ⟨x, hm, hxf⟩
            have htr : jsTrimL (c :: t) = w ++ d :: trimEndWS rest' := by
              rw [hdw, ← hsplit, hre,
                trimEndWS_append_ex ⟨x, hre ▸ hx, hxf⟩,
                trimEndWS_cons_ex hx']
            have hw1 : 1 ≤ w.length := by
              rcases w with _ | _
              · exact absurd rfl hwne
              · simp
            have hlen' : rest'.length ≤ n := by
              have hls : (w ++ rest).length = (c :: t).length := by rw [hsplit]
              rw [hre] at hls
              simp only [List.length_append, List.length_cons] at hls hl
              omega
            have hwords : wordsOf (c :: t) = w :: wordsOf rest' := by
              rw [wordsOf, ← hsplit, words_word w hwall [] rest, List.append_nil, hre,
                splitWordsAux.eq_2, if_pos hd, if_neg (by simpa using hwne),
                List.reverse_reverse]
              rfl
            have hwne' : wordsOf rest' ≠ [] := words_ne_of_ex rest' hx'
            rw [htr, hwords, collapse_nonws_append w hwall,
              collapseF.eq_2, if_pos hd]
            rw [if_neg (by simp : ¬ (false = true))]
            rw [collapse_true_eq, dropWhile_trimEndWS_comm, ← jsTrimL_eq,
              ih rest' hlen']
            rcases hwre : wordsOf rest' with _ | ⟨u, us⟩
            · exact absurd hwre hwne'
            · rfl

theorem words_intercal :
    ∀ ws : List (List Char),
      (∀ w ∈ ws, w ≠ [] ∧ ∀ c ∈ w, isWS c = false) →
      wordsOf (intercalW ws) = ws := by
  intro ws
  induction ws with
  | nil => intro _; rfl
  | cons w ws' ih =>
    intro h
    obtain ⟨hne, hall⟩ := h w (by simp)
    rcases ws' with _ | ⟨u, us⟩
    · calc wordsOf (intercalW [w]) = splitWordsAux [] (w ++ []) := by
            rw [List.append_nil]; rfl
        _ = splitWordsAux (w.reverse ++ []) [] := words_word w hall [] []
        _ = [w] := by
            rw [List.append_nil, splitWordsAux, if_neg (by simpa using hne),
              List.reverse_reverse]
    · have hih := ih fun v hv => h v (by simp [hv])
      calc wordsOf (intercalW (w :: u :: us))
          = splitWordsAux [] (w ++ ' ' :: intercalW (u :: us)) := rfl
        _ = splitWordsAux (w.reverse ++ []) (' ' :: intercalW (u :: us)) :=
            words_word w hall [] _
        _ = w :: wordsOf (intercalW (u :: us)) := by
            rw [List.append_nil, splitWordsAux.eq_2, if_pos (by decide),
              if_neg (by simpa using hne), List.reverse_reverse]
            rfl
        _ = w :: u :: us := by rw [hih]

theorem intercal_map_toLower :
    ∀ ws : List (List Char),
      (intercalW ws).map Char.toLower = intercalW (ws.map (List.map Char.toLower)) := by
  intro ws
  induction ws with
  | nil => rfl
  | cons w ws' ih =>
    rcases ws' with _ | ⟨u, us⟩
    · rfl
    · rw [show intercalW (w :: u :: us) = w ++ ' ' :: intercalW (u :: us) from rfl,
        List.map_append, List.map_cons, ih,
        show Char.toLower ' ' = ' ' from rfl]
      rfl

/-- Claim C7: `normalizeName` maps `undefined`/`null` to the empty string
and any string to the lowercased single-space join of its whitespace-
separated words (i.e. trimmed, whitespace-runs collapsed, lowercased);
consequently it is idempotent and identifies strings that differ only in
spacing or letter case. -/
theorem normalizeName_spec :
    normalizeName none = "" ∧
    (∀ s : String, normalizeName (some s) =
      ⟨intercalW ((wordsOf s.data).map (List.map Char.toLower))⟩) ∧
    (∀ s : String,
      normalizeName (some (normalizeName (some s))) = normalizeName (some s)) ∧
    (∀ s t : String,
      (wordsOf s.data).map (List.map Char.toLower) =
        (wordsOf t.data).map (List.map Char.toLower) →
      normalizeName (some s) = normalizeName (some t)) := by
  have hchar : ∀ s : String, normalizeName (some s) =
      ⟨intercalW ((wordsOf s.data).map (List.map Char.toLower))⟩ := by
    intro s
    have h1 : collapseF false (jsTrimL s.data) = intercalW (wordsOf s.data) :=
      collapse_trim_eq_intercal s.data.length s.data le_rfl
    calc normalizeName (some s)
        = ⟨(collapseF false (jsTrimL s.data)).map Char.toLower⟩ := rfl
      _ = ⟨(intercalW (wordsOf s.data)).map Char.toLower⟩ := by rw [h1]
      _ = ⟨intercalW ((wordsOf s.data).map (List.map Char.toLower))⟩ := by
          rw [intercal_map_toLower]
  refine ⟨rfl, hchar, ?_, ?_⟩
  · intro s
    rw [hchar s]
    rw [hchar ⟨intercalW ((wordsOf s.data).map (List.map Char.toLower))⟩]
    have hgood : ∀ w ∈ (wordsOf s.data).map (List.map Char.toLower),
        w ≠ [] ∧ ∀ c ∈ w, isWS c = false := by
      intro w hw
      rcases List.mem_map.mp hw with ⟨v, hv, hve⟩
      obtain ⟨hvne, hvall⟩ := words_good s.data [] (by simp) v hv
      constructor
      · rw [← hve]
        simpa using hvne
      · intro c hc
        rw [← hve] at hc
        rcases List.mem_map.mp hc with ⟨c0, hc0, hc0e⟩
        rw [← hc0e, isWS_toLower]
        exact hvall c0 hc0
    have hret : wordsOf (intercalW ((wordsOf s.data).map (List.map Char.toLower))) =
        (wordsOf s.data).map (List.map Char.toLower) :=
      words_intercal _ hgood
    have hidem : ((wordsOf s.data).map (List.map Char.toLower)).map
        (List.map Char.toLower) = (wordsOf s.data).map (List.map Char.toLower) := by
      rw [List.map_map]
      apply List.map_congr_left
      intro v _
      show List.map Char.toLower (List.map Char.toLower v) = List.map Char.toLower v
      rw [List.map_map]
      apply List.map_congr_left
      intro c _
      exact toLower_idem c
    show (⟨intercalW ((wordsOf
        (intercalW ((wordsOf s.data).map (List.map Char.toLower)))).map
        (List.map Char.toLower))⟩ : String) = _
    rw [hret, hidem]
  · intro s t h
    rw [hchar s, hchar t, h]

/-- Witness for `normalizeName_spec`: two strings differing only in spacing
and case normalize identically. -/
theorem normalizeName_spec_witness :
    normalizeName (some "A  b") = normalizeName (some " a B ") :=
  normalizeName_spec.2.2.2 "A  b" " a B " (by decide)

end CollegeProject
